import Mathlib

/-!
Verification of the Workspace Session Controller of `sourcegraph/lang-typescript`
(`src/server.ts`, `src/tsconfig.ts`, `src/dependencies.ts`, `src/cancellation.ts`).

URLs are modelled structurally as an origin string plus a list of path segments;
`href` is the serialized textual form the code compares with `String.prototype.startsWith`
and `String.prototype.includes`. Relative URL resolution follows the WHATWG algorithm
restricted to path-only relative references (which is all the server ever resolves):
dot segments are collapsed, `..` removes the previous segment (including an empty
segment produced by a double slash).
-/

namespace LangTypescript

/-- JavaScript `string.includes(needle)` on character lists. -/
def charsHaveInfix : List Char → List Char → Bool
  | [], needle => needle.isEmpty
  | c :: rest, needle => needle.isPrefixOf (c :: rest) || charsHaveInfix rest needle

/-- JavaScript `String.prototype.includes`. -/
def strHas (s needle : String) : Bool :=
  charsHaveInfix s.data needle.data

/-- JavaScript `String.prototype.startsWith`. -/
def strStarts (s p : String) : Bool :=
  p.data.isPrefixOf s.data

/-- Join path segments with `/` (serialization of a URL path, without the leading slash). -/
def joinSlash : List String → String
  | [] => ""
  | [s] => s
  | s :: rest => s ++ "/" ++ joinSlash rest

/-- Split a character list on `/`, keeping empty segments (as the WHATWG path parser does). -/
def splitSlashAux : List Char → List Char → List String
  | [], acc => [String.mk acc]
  | c :: rest, acc =>
    if c = '/' then String.mk acc :: splitSlashAux rest []
    else splitSlashAux rest (acc ++ [c])

/-- Split a string on `/`, keeping empty segments. -/
def splitSlash (s : String) : List String :=
  splitSlashAux s.data []

/--
A URL, modelled as its origin (scheme and authority, e.g. `https://example.com` or
`file://`) and the list of path segments. A trailing empty segment encodes a trailing
slash, an inner empty segment encodes a double slash. Queries and fragments never occur
in the URLs the server manipulates.
-/
structure Url where
  origin : String
  segments : List String
deriving DecidableEq, Repr

/-- The serialized textual form, as compared by the code with `startsWith`/`includes`. -/
def Url.href (u : Url) : String :=
  u.origin ++ "/" ++ joinSlash u.segments

/-- The path part of the URL (`URL.prototype.pathname`). -/
def Url.pathname (u : Url) : String :=
  "/" ++ joinSlash u.segments

/-- One step of WHATWG path-segment normalization. -/
def normStep (acc : List String) (seg : String) : List String :=
  if seg = ".." then acc.dropLast
  else if seg = "." then acc
  else acc ++ [seg]

/--
WHATWG dot-segment normalization of a URL path: `..` pops the previous segment
(a no-op on an empty path), `.` is dropped, and a final `.` or `..` leaves a
trailing slash.
-/
def normalizeSegments (segs : List String) : List String :=
  let core := segs.foldl normStep []
  match segs.getLast? with
  | some s => if s = ".." || s = "." then core ++ [""] else core
  | none => core

/--
Model of `new URL(rel, base)` for a path-only relative reference `rel` (no scheme, query or
fragment, which the server never produces in relative strings): a leading `/` makes the
path origin-absolute, otherwise `rel` is merged onto the base path with its last segment
removed, and dot segments are normalized.
-/
def resolveRelative (rel : String) (base : Url) : Url :=
  match rel.data with
  | '/' :: rest => { origin := base.origin, segments := normalizeSegments (splitSlashAux rest []) }
  | _ => { origin := base.origin, segments := normalizeSegments (base.segments.dropLast ++ splitSlash rel) }

/-- POSIX path resolution of already-split segments (`path.posix.resolve` on a path list):
drops empty and `.` segments and lets `..` pop the previous segment. -/
def resolvePosix (segs : List String) : List String :=
  segs.foldl (fun acc seg =>
    if seg = "" then acc
    else if seg = "." then acc
    else if seg = ".." then acc.dropLast
    else acc ++ [seg]) []

/-- Length of the longest common segment-list head shared by two paths. -/
def commonPrefixLen : List String → List String → Nat
  | a :: as, b :: bs => if a = b then commonPrefixLen as bs + 1 else 0
  | _, _ => 0

/--
Modelled from the spec: `relativeUrl` from `src/uri.ts`, which is not included under
`src/`. The spec defines `httpToFile(uri)` by "computes `relPath = uri − httpRoot`;
returns `fileRoot + relPath`. Fails if the result does not start with `fileRoot` (path
escape)" with URI comparisons "textual on the normalized `href` form". The subtraction is
realized as the POSIX relative path between the two URL paths (`path.posix.relative`):
when `target` lies under `base` this is exactly the textual remainder, and when it does
not, leading `..` segments make the subsequent relative resolution escape the root so the
path-escape check can catch it.
-/
def relativeUrl (base target : Url) : String :=
  let f := resolvePosix base.segments
  let t := resolvePosix target.segments
  let c := commonPrefixLen f t
  joinSlash (List.replicate (f.length - c) ".." ++ t.drop c)

/--
Embedding of `mapHttpToFileUrlSimple` (server.ts:448-457): rewrite an HTTP URI under `httpRootUri` to
the corresponding `file:` URI under `fileRootUri`; the security check throws when the
resolved file URI does not start with the file root.
-/
def mapHttpToFileUrlSimple (httpRootUri fileRootUri : Url) (uri : Url) : Except String Url :=
  let relative := relativeUrl httpRootUri uri
  let fileUri := resolveRelative relative fileRootUri
  if !(strStarts fileUri.href fileRootUri.href) then
    .error "URI is not under rootUri"
  else
    .ok fileUri

/--
Embedding of `mapFileToHttpUrlSimple` (server.ts:463-475): rewrite a `file:` URI under `fileRootUri`
to the corresponding HTTP URI under `httpRootUri`; throws when the relative path contains
`node_modules/` or when the resolved HTTP URI does not start with the HTTP root.
-/
def mapFileToHttpUrlSimple (httpRootUri fileRootUri : Url) (uri : Url) : Except String Url :=
  let relativePath := relativeUrl fileRootUri uri
  if strHas relativePath "node_modules/" then
    .error "cannot map URI to HTTP URL because it is in node_modules"
  else
    let httpUri := resolveRelative relativePath httpRootUri
    if !(strStarts httpUri.href httpRootUri.href) then
      .error "URI is not under rootUri"
    else
      .ok httpUri

/--
Model of `new URL(s)` for an absolute URL string with the given origin: the path part after
`origin ++ "/"` is split on slashes and dot-normalized. Used to state claims about
textual inputs such as `httpRoot + "/../etc/passwd"`.
-/
def parseUrlWithOrigin (origin : String) (s : String) : Url :=
  { origin := origin
    segments := normalizeSegments (splitSlashAux (s.data.drop (origin.data.length + 1)) []) }

/-!
Helper lemmas about the URL model, used to settle the URI-mapper claims.
-/

/-- A plain path segment: nonempty, not a dot segment, and containing no slash.
Path segments of URIs of actual files in the workspace are always plain. -/
def PlainSeg (s : String) : Prop :=
  s ≠ "" ∧ s ≠ "." ∧ s ≠ ".." ∧ '/' ∉ s.data

instance : DecidablePred PlainSeg := fun s => by
  unfold PlainSeg; infer_instance

theorem data_append (s t : String) : (s ++ t).data = s.data ++ t.data := by
  cases s; cases t; rfl

theorem data_ne_nil {s : String} (h : s ≠ "") : s.data ≠ [] := by
  cases s with
  | mk d =>
    intro hd
    exact h (by simp_all)

theorem isPrefixOf_append_self (a b : List Char) : a.isPrefixOf (a ++ b) = true := by
  induction a with
  | nil => simp [List.isPrefixOf]
  | cons c t ih => simpa [List.isPrefixOf] using ih

theorem strStarts_append (a b : String) : strStarts (a ++ b) a = true := by
  simp [strStarts, data_append, isPrefixOf_append_self]

theorem foldl_normStep_plain (l : List String) (acc : List String)
    (h : ∀ s ∈ l, PlainSeg s) : l.foldl normStep acc = acc ++ l := by
  induction l generalizing acc with
  | nil => simp
  | cons a t ih =>
    have ha := h a (by simp)
    have : normStep acc a = acc ++ [a] := by
      simp [normStep, ha.2.2.1, ha.2.1]
    rw [List.foldl_cons, this, ih _ (fun s hs => h s (by simp [hs]))]
    simp

theorem getLast?_mem {α : Type} : ∀ {l : List α} {a : α}, l.getLast? = some a → a ∈ l := by
  intro l
  induction l with
  | nil => intro a h; simp at h
  | cons b t ih =>
    intro a h
    cases t with
    | nil => simp_all [List.getLast?]
    | cons c u =>
      rw [List.getLast?_cons_cons] at h
      exact List.mem_cons_of_mem b (ih h)

theorem normalizeSegments_plain (l : List String) (hne : l ≠ [])
    (h : ∀ s ∈ l, PlainSeg s) : normalizeSegments l = l := by
  unfold normalizeSegments
  cases hl : l.getLast? with
  | none =>
    have : l = [] := by simpa [List.getLast?_eq_none_iff] using hl
    exact absurd this hne
  | some a =>
    have ha := h a (getLast?_mem hl)
    simp [ha.2.1, ha.2.2.1, foldl_normStep_plain l [] h]

theorem resolvePosix_plain (l : List String) (h : ∀ s ∈ l, PlainSeg s) :
    resolvePosix l = l := by
  unfold resolvePosix
  have : ∀ (acc : List String), l.foldl (fun acc seg =>
      if seg = "" then acc else if seg = "." then acc
      else if seg = ".." then acc.dropLast else acc ++ [seg]) acc = acc ++ l := by
    induction l with
    | nil => simp
    | cons a t ih =>
      intro acc
      have ha := h a (by simp)
      simp only [List.foldl_cons, if_neg ha.1, if_neg ha.2.1, if_neg ha.2.2.1]
      rw [ih (fun s hs => h s (by simp [hs]))]
      simp
  simpa using this []

theorem resolvePosix_dir (l : List String) (h : ∀ s ∈ l, PlainSeg s) :
    resolvePosix (l ++ [""]) = l := by
  unfold resolvePosix
  rw [List.foldl_append]
  have := resolvePosix_plain l h
  unfold resolvePosix at this
  rw [this]
  simp

theorem commonPrefixLen_self_append (l m : List String) :
    commonPrefixLen l (l ++ m) = l.length := by
  induction l with
  | nil => cases m <;> simp [commonPrefixLen]
  | cons a t ih => simp [commonPrefixLen, ih]

/-- Under the root, `relativeUrl` is exactly the joined remainder of the path. -/
theorem relativeUrl_under (o₁ o₂ : String) (d rest : List String)
    (hd : ∀ s ∈ d, PlainSeg s) (hr : ∀ s ∈ rest, PlainSeg s) :
    relativeUrl ⟨o₁, d ++ [""]⟩ ⟨o₂, d ++ rest⟩ = joinSlash rest := by
  unfold relativeUrl
  simp only [resolvePosix_dir d hd]
  have hplain : ∀ s ∈ d ++ rest, PlainSeg s := by
    intro s hs
    rcases List.mem_append.1 hs with h | h
    · exact hd s h
    · exact hr s h
  rw [resolvePosix_plain _ hplain, commonPrefixLen_self_append, Nat.sub_self,
    List.drop_left]
  simp

theorem splitSlashAux_no_slash (seg : List Char) (acc : List Char)
    (h : '/' ∉ seg) : splitSlashAux seg acc = [String.mk (acc ++ seg)] := by
  induction seg generalizing acc with
  | nil => simp [splitSlashAux]
  | cons c t ih =>
    have hc : c ≠ '/' := fun hc => h (by simp [hc])
    rw [splitSlashAux, if_neg hc, ih _ (fun ht => h (by simp [ht]))]
    simp

theorem splitSlashAux_slash (seg rest : List Char) (acc : List Char)
    (h : '/' ∉ seg) :
    splitSlashAux (seg ++ '/' :: rest) acc = String.mk (acc ++ seg) :: splitSlashAux rest [] := by
  induction seg generalizing acc with
  | nil => simp [splitSlashAux]
  | cons c t ih =>
    have hc : c ≠ '/' := fun hc => h (by simp [hc])
    rw [List.cons_append, splitSlashAux, if_neg hc, ih _ (fun ht => h (by simp [ht]))]
    simp

theorem joinSlash_cons (a : String) (l : List String) (h : l ≠ []) :
    joinSlash (a :: l) = a ++ "/" ++ joinSlash l := by
  cases l with
  | nil => exact absurd rfl h
  | cons b t => rfl

theorem mk_data (s : String) : String.mk s.data = s := by
  cases s; rfl

theorem splitSlash_joinSlash (l : List String) (hne : l ≠ [])
    (h : ∀ s ∈ l, '/' ∉ s.data) : splitSlash (joinSlash l) = l := by
  induction l with
  | nil => exact absurd rfl hne
  | cons a t ih =>
    cases t with
    | nil =>
      have := splitSlashAux_no_slash a.data [] (h a (by simp))
      simpa [splitSlash, joinSlash, mk_data] using this
    | cons b u =>
      rw [joinSlash_cons a (b :: u) (by simp)]
      unfold splitSlash
      rw [data_append, data_append]
      have hslash : ("/" : String).data = ['/'] := rfl
      rw [hslash, List.append_assoc, List.singleton_append,
        splitSlashAux_slash a.data _ [] (h a (by simp))]
      simp only [List.nil_append, mk_data]
      have := ih (by simp) (fun s hs => h s (by simp [hs]))
      unfold splitSlash at this
      rw [this]

theorem joinSlash_append (l m : List String) (hl : l ≠ []) (hm : m ≠ []) :
    joinSlash (l ++ m) = joinSlash l ++ "/" ++ joinSlash m := by
  induction l with
  | nil => exact absurd rfl hl
  | cons a t ih =>
    cases t with
    | nil => simpa using joinSlash_cons a m hm
    | cons b u =>
      rw [List.cons_append, joinSlash_cons a ((b :: u) ++ m) (by simp),
        joinSlash_cons a (b :: u) (by simp), ih (by simp)]
      simp [String.append_assoc]

theorem joinSlash_data_head (a : String) (l : List String) :
    ∃ t, (joinSlash (a :: l)).data = a.data ++ t := by
  cases l with
  | nil => exact ⟨[], by simp [joinSlash]⟩
  | cons b u =>
    refine ⟨'/' :: (joinSlash (b :: u)).data, ?_⟩
    rw [joinSlash_cons a (b :: u) (by simp), data_append, data_append]
    simp

/-- Resolving a joined plain relative path against a directory root appends its segments. -/
theorem resolveRelative_joinSlash_plain (l : List String) (hne : l ≠ [])
    (hp : ∀ s ∈ l, PlainSeg s) (base : Url) :
    resolveRelative (joinSlash l) base
      = ⟨base.origin, normalizeSegments (base.segments.dropLast ++ l)⟩ := by
  obtain ⟨a, t, rfl⟩ : ∃ a t, l = a :: t := by
    cases l with
    | nil => exact absurd rfl hne
    | cons a t => exact ⟨a, t, rfl⟩
  have ha := hp a (by simp)
  obtain ⟨tl, htl⟩ := joinSlash_data_head a t
  obtain ⟨c, cs, hcs⟩ : ∃ c cs, a.data = c :: cs := by
    cases hd : a.data with
    | nil => exact absurd hd (data_ne_nil ha.1)
    | cons c cs => exact ⟨c, cs, rfl⟩
  have hc : c ≠ '/' := by
    intro h
    exact ha.2.2.2 (by simp [hcs, h])
  have hsplit : splitSlash (joinSlash (a :: t)) = a :: t :=
    splitSlash_joinSlash _ (by simp) (fun s hs => (hp s hs).2.2.2)
  unfold resolveRelative
  rw [htl, hcs]
  split
  · next heq => simp_all
  · rw [hsplit]

/-- Textual href comparison: a URL extending a directory root starts with the root's href. -/
theorem strStarts_href_dir (o : String) (d m : List String) (hd : d ≠ []) (hm : m ≠ []) :
    strStarts (Url.href ⟨o, d ++ m⟩) (Url.href ⟨o, d ++ [""]⟩) = true := by
  unfold Url.href
  rw [joinSlash_append d m hd hm, joinSlash_append d [""] hd (by simp)]
  show strStarts (o ++ "/" ++ (joinSlash d ++ "/" ++ joinSlash m))
    (o ++ "/" ++ (joinSlash d ++ "/" ++ joinSlash [""])) = true
  simp only [joinSlash]
  unfold strStarts
  simp only [data_append, List.append_assoc]
  simp only [List.append_nil, ← List.append_assoc]
  exact isPrefixOf_append_self _ _

/-- Every successful result of `mapHttpToFileUrlSimple` textually starts with the file
root's href: this is exactly the security check of server.ts:453. -/
theorem mapHttpToFileUrlSimple_ok_starts (httpRootUri fileRootUri uri v : Url)
    (h : mapHttpToFileUrlSimple httpRootUri fileRootUri uri = .ok v) :
    strStarts v.href fileRootUri.href = true := by
  simp only [mapHttpToFileUrlSimple] at h
  split at h
  · exact absurd h (by simp)
  · next hguard =>
    cases h
    simpa using hguard

/-- Every successful result of `mapFileToHttpUrlSimple` textually starts with the HTTP
root's href (server.ts:469). -/
theorem mapFileToHttpUrlSimple_ok_starts (httpRootUri fileRootUri uri v : Url)
    (h : mapFileToHttpUrlSimple httpRootUri fileRootUri uri = .ok v) :
    strStarts v.href httpRootUri.href = true := by
  simp only [mapFileToHttpUrlSimple] at h
  split at h
  · exact absurd h (by simp)
  · split at h
    · exact absurd h (by simp)
    · next hguard =>
      cases h
      simpa using hguard

/-- Concrete HTTP workspace root used for boundary-behavior statements and witnesses. -/
def cHttpRoot : Url := ⟨"https://sourcegraph.test", ["repo@abc", "-", "raw", ""]⟩

/-- Concrete file workspace root corresponding to `cHttpRoot`. -/
def cFileRoot : Url := ⟨"file://", ["tmp", "cache", "conn1", "repo", ""]⟩

/-- C1 (counterexample): the claim asserts that on the input `httpRoot + "/../etc/passwd"`
`mapHttpToFileUrlSimple` throws a path-escape error. It does not: parsing that string as
a URL lets the `..` consume the empty segment created by the doubled slash, so the URI
normalizes to `httpRoot + "etc/passwd"` and is mapped without error to a file URI inside
the file root. -/
theorem mapHttpToFileUrlSimple_dotdot_counterexample :
    mapHttpToFileUrlSimple cHttpRoot cFileRoot
        (parseUrlWithOrigin "https://sourcegraph.test" (cHttpRoot.href ++ "/../etc/passwd"))
      = .ok ⟨"file://", ["tmp", "cache", "conn1", "repo", "etc", "passwd"]⟩ := by
  rfl

/-- C1 (amended): `mapHttpToFileUrlSimple` either returns a file URI whose href starts
with the file root's href or throws; the traversal input `httpRoot + "../etc/passwd"`
(a single slash, so that relative resolution really escapes the file root) is rejected
with the path-escape error, while the doubled-slash input of the claim normalizes inside
the root (see the counterexample). -/
theorem mapHttpToFileUrlSimple_no_escape :
    (∀ httpRootUri fileRootUri uri v : Url,
        mapHttpToFileUrlSimple httpRootUri fileRootUri uri = .ok v →
        strStarts v.href fileRootUri.href = true)
    ∧ mapHttpToFileUrlSimple cHttpRoot cFileRoot
        (parseUrlWithOrigin "https://sourcegraph.test" (cHttpRoot.href ++ "../etc/passwd"))
      = .error "URI is not under rootUri" :=
  ⟨mapHttpToFileUrlSimple_ok_starts, by rfl⟩

/-- C1 (witness): the no-escape theorem applied at a concrete in-workspace URI. -/
theorem mapHttpToFileUrlSimple_no_escape_witness :
    strStarts (Url.href ⟨"file://", ["tmp", "cache", "conn1", "repo", "a.ts"]⟩)
      cFileRoot.href = true :=
  mapHttpToFileUrlSimple_no_escape.1 cHttpRoot cFileRoot
    ⟨"https://sourcegraph.test", ["repo@abc", "-", "raw", "a.ts"]⟩
    ⟨"file://", ["tmp", "cache", "conn1", "repo", "a.ts"]⟩ (by rfl)

/-- C2: for an in-workspace file URI (a plain path extending the file root whose path
relative to the root does not contain `node_modules/`), `mapFileToHttpUrlSimple` yields
the HTTP URI with the same relative path, and `mapHttpToFileUrlSimple` maps that HTTP URI
back to the original file URI. -/
theorem fileToHttp_httpToFile_roundtrip (ho fo : String) (hd fd rest : List String)
    (hhd : hd ≠ []) (hfd : fd ≠ []) (hrest : rest ≠ [])
    (hp1 : ∀ s ∈ hd, PlainSeg s) (hp2 : ∀ s ∈ fd, PlainSeg s) (hp3 : ∀ s ∈ rest, PlainSeg s)
    (hnm : strHas (relativeUrl ⟨fo, fd ++ [""]⟩ ⟨fo, fd ++ rest⟩) "node_modules/" = false) :
    mapFileToHttpUrlSimple ⟨ho, hd ++ [""]⟩ ⟨fo, fd ++ [""]⟩ ⟨fo, fd ++ rest⟩
        = .ok ⟨ho, hd ++ rest⟩
    ∧ mapHttpToFileUrlSimple ⟨ho, hd ++ [""]⟩ ⟨fo, fd ++ [""]⟩ ⟨ho, hd ++ rest⟩
        = .ok ⟨fo, fd ++ rest⟩ := by
  have hrelF : relativeUrl ⟨fo, fd ++ [""]⟩ ⟨fo, fd ++ rest⟩ = joinSlash rest :=
    relativeUrl_under fo fo fd rest hp2 hp3
  have hrelH : relativeUrl ⟨ho, hd ++ [""]⟩ ⟨ho, hd ++ rest⟩ = joinSlash rest :=
    relativeUrl_under ho ho hd rest hp1 hp3
  have hresH : resolveRelative (joinSlash rest) ⟨ho, hd ++ [""]⟩ = ⟨ho, hd ++ rest⟩ := by
    rw [resolveRelative_joinSlash_plain rest hrest hp3]
    show (⟨ho, normalizeSegments ((hd ++ [""]).dropLast ++ rest)⟩ : Url) = ⟨ho, hd ++ rest⟩
    rw [List.dropLast_concat,
      normalizeSegments_plain _ (by simp [hrest])
        (fun s hs => (List.mem_append.1 hs).elim (hp1 s) (hp3 s))]
  have hresF : resolveRelative (joinSlash rest) ⟨fo, fd ++ [""]⟩ = ⟨fo, fd ++ rest⟩ := by
    rw [resolveRelative_joinSlash_plain rest hrest hp3]
    show (⟨fo, normalizeSegments ((fd ++ [""]).dropLast ++ rest)⟩ : Url) = ⟨fo, fd ++ rest⟩
    rw [List.dropLast_concat,
      normalizeSegments_plain _ (by simp [hrest])
        (fun s hs => (List.mem_append.1 hs).elim (hp2 s) (hp3 s))]
  have hnm' : strHas (joinSlash rest) "node_modules/" = false := hrelF ▸ hnm
  have hstH : strStarts (Url.href ⟨ho, hd ++ rest⟩) (Url.href ⟨ho, hd ++ [""]⟩) = true :=
    strStarts_href_dir ho hd rest hhd hrest
  have hstF : strStarts (Url.href ⟨fo, fd ++ rest⟩) (Url.href ⟨fo, fd ++ [""]⟩) = true :=
    strStarts_href_dir fo fd rest hfd hrest
  constructor
  · simp only [mapFileToHttpUrlSimple, hrelF, hnm', hresH, hstH]
    simp
  · simp only [mapHttpToFileUrlSimple, hrelH, hresF, hstF]
    simp

/-- C2 (witness): the round-trip theorem applied at a concrete in-workspace file URI. -/
theorem fileToHttp_httpToFile_roundtrip_witness :
    mapFileToHttpUrlSimple cHttpRoot cFileRoot
        ⟨"file://", ["tmp", "cache", "conn1", "repo", "src", "z.ts"]⟩
      = .ok ⟨"https://sourcegraph.test", ["repo@abc", "-", "raw", "src", "z.ts"]⟩
    ∧ mapHttpToFileUrlSimple cHttpRoot cFileRoot
        ⟨"https://sourcegraph.test", ["repo@abc", "-", "raw", "src", "z.ts"]⟩
      = .ok ⟨"file://", ["tmp", "cache", "conn1", "repo", "src", "z.ts"]⟩ :=
  fileToHttp_httpToFile_roundtrip "https://sourcegraph.test" "file://"
    ["repo@abc", "-", "raw"] ["tmp", "cache", "conn1", "repo"] ["src", "z.ts"]
    (by decide) (by decide) (by decide) (by decide) (by decide) (by decide) (by rfl)

/-!
Single-flight dependency installation (server.ts:681-733).
-/

/-- Per-session installation bookkeeping: `promises` models
`dependencyInstallationPromises` (an insertion-ordered map from package-root href to the
shared promise, identified here by a numeric id), `installs` records every invocation of
`installDependenciesForPackage` together with the promise created for it, and `nextId`
supplies fresh promise ids. No code path ever removes an entry from `promises`. -/
structure InstallState where
  promises : List (String × Nat)
  installs : List (String × Nat)
  nextId : Nat
deriving DecidableEq, Repr

/-- Assoc-list lookup by key (a `URLMap` keyed on href: `Map.prototype.get`). -/
def lookupHref : List (String × Nat) → String → Option Nat
  | [], _ => none
  | e :: rest, key => if e.1 = key then some e.2 else lookupHref rest key

/-- Initial installation state of a session: no promises, no installer invocations. -/
def installState0 : InstallState := ⟨[], [], 0⟩

/-- Embedding of `ensureDependenciesForPackageRoot` (server.ts:722-733): look up the
installation promise for the package root; when absent, invoke
`installDependenciesForPackage` and store its promise so that later or concurrent callers
await the same one. The lookup and the store happen with no `await` between them, so the
single-threaded event loop runs them atomically; a sequence of interleaved calls is
therefore a sequence of these atomic steps. Returns the promise the caller awaits. -/
def ensureDependenciesForPackageRoot (st : InstallState) (packageRootHref : String) :
    InstallState × Nat :=
  match lookupHref st.promises packageRootHref with
  | some p => (st, p)
  | none =>
    let p := st.nextId
    ({ promises := st.promises ++ [(packageRootHref, p)]
       installs := st.installs ++ [(packageRootHref, p)]
       nextId := p + 1 }, p)

/-- Run a sequence of `ensureDependenciesForPackageRoot` calls in the order the event
loop serializes them, returning the final state and, per call, the promise returned. -/
def runEnsures (st : InstallState) : List String → InstallState × List (String × Nat)
  | [] => (st, [])
  | m :: ms =>
    let step := ensureDependenciesForPackageRoot st m
    let restRun := runEnsures step.1 ms
    (restRun.1, (m, step.2) :: restRun.2)

theorem runEnsures_nil (st : InstallState) : runEnsures st [] = (st, []) := rfl

theorem runEnsures_cons_fst (st : InstallState) (m : String) (ms : List String) :
    (runEnsures st (m :: ms)).1 = (runEnsures (ensureDependenciesForPackageRoot st m).1 ms).1 :=
  rfl

theorem runEnsures_cons_snd (st : InstallState) (m : String) (ms : List String) :
    (runEnsures st (m :: ms)).2
      = (m, (ensureDependenciesForPackageRoot st m).2)
          :: (runEnsures (ensureDependenciesForPackageRoot st m).1 ms).2 :=
  rfl

theorem lookupHref_append_of_some {l : List (String × Nat)} {k : String} {p : Nat}
    (l' : List (String × Nat)) (h : lookupHref l k = some p) :
    lookupHref (l ++ l') k = some p := by
  induction l with
  | nil => simp [lookupHref] at h
  | cons a t ih =>
    rw [List.cons_append]
    unfold lookupHref at h ⊢
    split at h
    · next heq =>
      rw [if_pos heq]
      exact h
    · next hne =>
      rw [if_neg hne]
      exact ih h

theorem lookupHref_append_self {l : List (String × Nat)} {k : String} (p : Nat)
    (h : lookupHref l k = none) : lookupHref (l ++ [(k, p)]) k = some p := by
  induction l with
  | nil => simp [lookupHref]
  | cons a t ih =>
    unfold lookupHref at h
    rw [List.cons_append]
    unfold lookupHref
    split at h
    · exact absurd h (by simp)
    · next hne =>
      rw [if_neg hne]
      exact ih h

/-- The promises map only grows during a run. -/
theorem runEnsures_promises_grow (ms : List String) (st : InstallState) :
    ∃ l', (runEnsures st ms).1.promises = st.promises ++ l' := by
  induction ms generalizing st with
  | nil => exact ⟨[], by simp [runEnsures_nil]⟩
  | cons m ms ih =>
    rw [runEnsures_cons_fst]
    obtain ⟨l', hl'⟩ := ih (ensureDependenciesForPackageRoot st m).1
    rw [hl']
    unfold ensureDependenciesForPackageRoot
    split
    · exact ⟨l', rfl⟩
    · refine ⟨(m, st.nextId) :: l', ?_⟩
      simp

theorem runEnsures_lookup_stable {st : InstallState} {m : String} {p : Nat}
    (ms : List String) (h : lookupHref st.promises m = some p) :
    lookupHref (runEnsures st ms).1.promises m = some p := by
  obtain ⟨l', hl'⟩ := runEnsures_promises_grow ms st
  rw [hl']
  exact lookupHref_append_of_some l' h

/-- Every promise returned to a caller is the one recorded in the final promises map. -/
theorem runEnsures_ret_lookup {m : String} {p : Nat} :
    ∀ (ms : List String) (st : InstallState), (m, p) ∈ (runEnsures st ms).2 →
    lookupHref (runEnsures st ms).1.promises m = some p := by
  intro ms
  induction ms with
  | nil =>
    intro st h
    rw [runEnsures_nil] at h
    simp at h
  | cons m0 ms ih =>
    intro st h
    rw [runEnsures_cons_snd] at h
    rw [runEnsures_cons_fst]
    rcases List.mem_cons.1 h with h0 | hrest
    · have hm : m0 = m := congrArg Prod.fst h0.symm
      have hp : (ensureDependenciesForPackageRoot st m0).2 = p := congrArg Prod.snd h0.symm
      subst hm
      have hstep : lookupHref (ensureDependenciesForPackageRoot st m0).1.promises m0
          = some (ensureDependenciesForPackageRoot st m0).2 := by
        unfold ensureDependenciesForPackageRoot
        cases hl : lookupHref st.promises m0 with
        | some q => simp [hl]
        | none => simp [hl, lookupHref_append_self st.nextId hl]
      rw [hp] at hstep
      exact runEnsures_lookup_stable ms hstep
    · exact ih _ hrest

/-- During a run, `installs` and `promises` stay equal: an installer invocation happens
exactly when a promise is created, with the same key and promise. -/
theorem runEnsures_installs_eq (ms : List String) (st : InstallState)
    (h : st.installs = st.promises) :
    (runEnsures st ms).1.installs = (runEnsures st ms).1.promises := by
  induction ms generalizing st with
  | nil =>
    rw [runEnsures_nil]
    exact h
  | cons m ms ih =>
    rw [runEnsures_cons_fst]
    apply ih
    unfold ensureDependenciesForPackageRoot
    split
    · exact h
    · simp [h]

theorem lookupHref_none_iff (l : List (String × Nat)) (k : String) :
    lookupHref l k = none ↔ k ∉ l.map Prod.fst := by
  induction l with
  | nil => simp [lookupHref]
  | cons a t ih =>
    unfold lookupHref
    constructor
    · intro h
      split at h
      · exact absurd h (by simp)
      · next hne =>
        simp only [List.map_cons, List.mem_cons]
        rintro (rfl | hmem)
        · exact hne rfl
        · exact (ih.1 h) hmem
    · intro h
      have h1 : ¬ a.1 = k := fun he => h (by simp [he])
      rw [if_neg h1]
      exact ih.2 (fun hmem => h (by simp [hmem]))

/-- Keys of the promises map stay pairwise distinct. -/
theorem runEnsures_keys_nodup (ms : List String) (st : InstallState)
    (h : (st.promises.map Prod.fst).Nodup) :
    ((runEnsures st ms).1.promises.map Prod.fst).Nodup := by
  induction ms generalizing st with
  | nil =>
    rw [runEnsures_nil]
    exact h
  | cons m ms ih =>
    rw [runEnsures_cons_fst]
    apply ih
    unfold ensureDependenciesForPackageRoot
    split
    · exact h
    · next hl =>
      simp only [List.map_append, List.map_cons, List.map_nil]
      apply List.Nodup.append h (by simp)
      rw [List.disjoint_singleton]
      exact (lookupHref_none_iff _ _).1 hl

/-- C3: in any serialized sequence of `ensureDependenciesForPackageRoot` calls within a
session, the installer is invoked at most once per package root, and every caller that
names the same package root is handed the same promise (in particular a finished or
failed installation, whose promise stays in the map, is never retried). -/
theorem installer_single_flight (ms : List String) (m : String) :
    (((runEnsures installState0 ms).1.installs.map Prod.fst).count m ≤ 1)
    ∧ ∀ p q : Nat, (m, p) ∈ (runEnsures installState0 ms).2 →
        (m, q) ∈ (runEnsures installState0 ms).2 → p = q := by
  constructor
  · rw [runEnsures_installs_eq ms installState0 rfl]
    have hnd := runEnsures_keys_nodup ms installState0 (by simp [installState0])
    exact List.nodup_iff_count_le_one.1 hnd m
  · intro p q hp hq
    have h1 := runEnsures_ret_lookup ms installState0 hp
    have h2 := runEnsures_ret_lookup ms installState0 hq
    rw [h1] at h2
    exact Option.some_injective _ h2

/-- C3 (witness): the single-flight theorem applied to the concrete call sequence
`[a, b, a]`; both calls for `a` received promise 0. -/
theorem installer_single_flight_witness :
    (((runEnsures installState0
        ["https://r/a/", "https://r/b/", "https://r/a/"]).1.installs.map Prod.fst).count
          "https://r/a/" ≤ 1)
    ∧ (0 : Nat) = 0 :=
  ⟨(installer_single_flight ["https://r/a/", "https://r/b/", "https://r/a/"]
      "https://r/a/").1,
   (installer_single_flight ["https://r/a/", "https://r/b/", "https://r/a/"]
      "https://r/a/").2 0 0 (by decide) (by decide)⟩

/-!
Open-document replay across downstream restarts (server.ts:479-540, 946-960, 1003-1020).
-/

/-- Parameters of a `textDocument/didOpen` notification as stored in `openTextDocuments`. -/
structure DocItem where
  uri : String
  languageId : String
  text : String
  version : Nat
deriving DecidableEq, Repr

/-- Messages the downstream language server receives from the session controller. -/
inductive ServerMsg where
  | initMsg (params : String)
  | didOpen (doc : DocItem)
deriving DecidableEq, Repr

/-- Session state relevant to open-document replay: the stored
`serverInitializeParams`, the `openTextDocuments` map (insertion-ordered, as a JavaScript
`Map` keyed on the file URI), the log of messages received by the current downstream
instance since it was spawned, and the history of every `didOpen` parameter ever sent
downstream (across restarts). -/
structure DocSession where
  initParams : String
  openDocs : List DocItem
  serverLog : List ServerMsg
  sentHistory : List DocItem
deriving DecidableEq, Repr

/-- JavaScript `Map.prototype.set` keyed on `uri`: overwrite the value in place when the
key exists (keeping its insertion position), otherwise append. -/
def mapSet (l : List DocItem) (d : DocItem) : List DocItem :=
  if l.any (fun e => e.uri == d.uri) then l.map (fun e => if e.uri == d.uri then d else e)
  else l ++ [d]

/-- Document-related operations a session performs between restarts. -/
inductive SessionOp where
  | openDoc (uri text : String)
  | clientDidOpen (doc : DocItem)
deriving DecidableEq, Repr

/-- Embedding of `openTextDocument` (server.ts:946-960) and of the client
`textDocument/didOpen` handler (server.ts:1003-1020): `openTextDocument` sends a
`didOpen` (languageId `typescript`, version 1, fetched text) only when the URI is not yet
in the map and then stores the sent parameters; the client handler always sends the
mapped parameters and stores them (overwriting in place). Both write the map with the
exact parameters they send. -/
def applyOp (s : DocSession) : SessionOp → DocSession
  | .openDoc uri text =>
    if s.openDocs.any (fun e => e.uri == uri) then s
    else
      let d : DocItem := ⟨uri, "typescript", text, 1⟩
      { s with
        serverLog := s.serverLog ++ [.didOpen d]
        sentHistory := s.sentHistory ++ [d]
        openDocs := mapSet s.openDocs d }
  | .clientDidOpen d =>
    { s with
      serverLog := s.serverLog ++ [.didOpen d]
      sentHistory := s.sentHistory ++ [d]
      openDocs := mapSet s.openDocs d }

/-- Embedding of `restartLanguageServer` (server.ts:479-540): the old downstream handle
is disposed, a fresh one is spawned (its message log starts empty), the stored
`serverInitializeParams` are sent and awaited, and then every entry of
`openTextDocuments` is replayed as a `didOpen` notification in the map's insertion
order. -/
def restartLanguageServer (s : DocSession) : DocSession :=
  { s with
    serverLog := .initMsg s.initParams :: s.openDocs.map .didOpen
    sentHistory := s.sentHistory ++ s.openDocs }

def runOps (s : DocSession) : List SessionOp → DocSession
  | [] => s
  | op :: ops => runOps (applyOp s op) ops

/-- Fresh session state after Initialize stored `serverInitializeParams`. -/
def docSession0 (initParams : String) : DocSession := ⟨initParams, [], [], []⟩

/-- Last `didOpen` parameters sent downstream for a given URI. -/
def lastSentFor (hist : List DocItem) (uri : String) : Option DocItem :=
  (hist.filter (fun e => e.uri == uri)).getLast?

theorem lastSentFor_append_match (hist : List DocItem) (d : DocItem) :
    lastSentFor (hist ++ [d]) d.uri = some d := by
  unfold lastSentFor
  rw [List.filter_append]
  simp [List.getLast?_concat]

theorem lastSentFor_append_other (hist : List DocItem) (d : DocItem) (uri : String)
    (h : d.uri ≠ uri) : lastSentFor (hist ++ [d]) uri = lastSentFor hist uri := by
  unfold lastSentFor
  rw [List.filter_append]
  simp [h]

/-- Invariant tying the open-documents map to the send history: every entry holds the
parameters last sent for its URI, and URIs are pairwise distinct. -/
def DocInv (s : DocSession) : Prop :=
  (∀ d ∈ s.openDocs, lastSentFor s.sentHistory d.uri = some d)
  ∧ (s.openDocs.map (fun d => d.uri)).Nodup

theorem mem_mapSet {l : List DocItem} {d d' : DocItem} (h : d' ∈ mapSet l d) :
    d' = d ∨ (d' ∈ l ∧ d'.uri ≠ d.uri) := by
  unfold mapSet at h
  split at h
  · next hany =>
    obtain ⟨e, he, hed⟩ := List.mem_map.1 h
    by_cases heq : e.uri = d.uri
    · left
      rw [if_pos (by simpa using heq)] at hed
      exact hed.symm
    · right
      rw [if_neg (by simpa using heq)] at hed
      exact ⟨hed ▸ he, hed ▸ heq⟩
  · next hany =>
    rcases List.mem_append.1 h with hmem | hsingle
    · right
      refine ⟨hmem, ?_⟩
      have := List.any_eq_true.not.1 hany
      push_neg at this
      simpa using this d' hmem
    · left
      simpa using hsingle

theorem mapSet_uris_overwrite {l : List DocItem} {d : DocItem}
    (h : l.any (fun e => e.uri == d.uri) = true) :
    (mapSet l d).map (fun e => e.uri) = l.map (fun e => e.uri) := by
  unfold mapSet
  rw [if_pos h, List.map_map]
  apply List.map_congr_left
  intro e _
  by_cases heq : e.uri = d.uri
  · simp [heq]
  · simp [heq]

theorem docInv_applyOp {s : DocSession} (op : SessionOp) (h : DocInv s) :
    DocInv (applyOp s op) := by
  obtain ⟨hlast, hnd⟩ := h
  cases op with
  | openDoc uri text =>
    by_cases hany : s.openDocs.any (fun e => e.uri == uri) = true
    · have happ : applyOp s (.openDoc uri text) = s := by
        simp only [applyOp, if_pos hany]
      rw [happ]
      exact ⟨hlast, hnd⟩
    · have happ : applyOp s (.openDoc uri text) =
          { s with
            serverLog := s.serverLog ++ [.didOpen ⟨uri, "typescript", text, 1⟩]
            sentHistory := s.sentHistory ++ [⟨uri, "typescript", text, 1⟩]
            openDocs := mapSet s.openDocs ⟨uri, "typescript", text, 1⟩ } := by
        simp only [applyOp, if_neg hany]
      rw [happ]
      have hnotin : ∀ e ∈ s.openDocs, e.uri ≠ uri := by
        intro e he
        have hx := List.any_eq_true.not.1 hany
        push_neg at hx
        simpa using hx e he
      constructor
      · intro d' hd'
        rcases mem_mapSet hd' with rfl | ⟨hmem, hneq⟩
        · exact lastSentFor_append_match _ _
        · show lastSentFor (s.sentHistory ++ [(⟨uri, "typescript", text, 1⟩ : DocItem)])
              d'.uri = some d'
          rw [lastSentFor_append_other _ _ _ (fun he => hneq he.symm)]
          exact hlast d' hmem
      · show ((mapSet s.openDocs ⟨uri, "typescript", text, 1⟩).map (fun d => d.uri)).Nodup
        unfold mapSet
        rw [if_neg hany]
        simp only [List.map_append, List.map_cons, List.map_nil]
        apply List.Nodup.append hnd (by simp)
        rw [List.disjoint_singleton]
        simpa using fun e he => hnotin e he
  | clientDidOpen d =>
    have happ : applyOp s (.clientDidOpen d) =
        { s with
          serverLog := s.serverLog ++ [.didOpen d]
          sentHistory := s.sentHistory ++ [d]
          openDocs := mapSet s.openDocs d } := by
      simp only [applyOp]
    rw [happ]
    constructor
    · intro d' hd'
      rcases mem_mapSet hd' with rfl | ⟨hmem, hneq⟩
      · exact lastSentFor_append_match _ _
      · show lastSentFor (s.sentHistory ++ [d]) d'.uri = some d'
        rw [lastSentFor_append_other _ _ _ (fun he => hneq he.symm)]
        exact hlast d' hmem
    · show ((mapSet s.openDocs d).map (fun e => e.uri)).Nodup
      by_cases hany : s.openDocs.any (fun e => e.uri == d.uri) = true
      · rw [mapSet_uris_overwrite hany]
        exact hnd
      · unfold mapSet
        rw [if_neg hany]
        simp only [List.map_append, List.map_cons, List.map_nil]
        apply List.Nodup.append hnd (by simp)
        rw [List.disjoint_singleton]
        have hx := List.any_eq_true.not.1 hany
        push_neg at hx
        simpa using fun e he => by simpa using hx e he

theorem docInv_runOps (ops : List SessionOp) (s : DocSession) (h : DocInv s) :
    DocInv (runOps s ops) := by
  induction ops generalizing s with
  | nil => exact h
  | cons op ops ih => exact ih _ (docInv_applyOp op h)

/-- C4: after a supervisor restart, the new downstream receives the stored Initialize
parameters first, then exactly one `didOpen` per entry of the open-documents map at
restart time, in the map's insertion order; the map's URIs are pairwise distinct and each
replayed entry carries exactly the parameters (URI, languageId, text, version) last sent
downstream for that file URI. -/
theorem restart_replays_open_documents (initParams : String) (ops : List SessionOp) :
    (restartLanguageServer (runOps (docSession0 initParams) ops)).serverLog
      = ServerMsg.initMsg (runOps (docSession0 initParams) ops).initParams
          :: (runOps (docSession0 initParams) ops).openDocs.map ServerMsg.didOpen
    ∧ ((runOps (docSession0 initParams) ops).openDocs.map (fun d => d.uri)).Nodup
    ∧ ∀ d ∈ (runOps (docSession0 initParams) ops).openDocs,
        lastSentFor (runOps (docSession0 initParams) ops).sentHistory d.uri = some d := by
  have hinv : DocInv (runOps (docSession0 initParams) ops) :=
    docInv_runOps ops (docSession0 initParams) ⟨by simp [docSession0], by simp [docSession0]⟩
  exact ⟨rfl, hinv.2, hinv.1⟩

/-- C4 (witness): a session that opens `a.ts` (client), opens `b.ts` (server side), and
re-opens `a.ts` with version 2; after restart the replayed entry for `a.ts` carries the
last sent parameters. -/
theorem restart_replays_open_documents_witness :
    lastSentFor
        (runOps (docSession0 "init")
          [SessionOp.clientDidOpen ⟨"file:///t/repo/a.ts", "typescript", "let a", 1⟩,
           SessionOp.openDoc "file:///t/repo/b.ts" "let b",
           SessionOp.clientDidOpen ⟨"file:///t/repo/a.ts", "typescript", "let a2", 2⟩]).sentHistory
        "file:///t/repo/a.ts"
      = some ⟨"file:///t/repo/a.ts", "typescript", "let a2", 2⟩ :=
  (restart_replays_open_documents "init"
      [SessionOp.clientDidOpen ⟨"file:///t/repo/a.ts", "typescript", "let a", 1⟩,
       SessionOp.openDoc "file:///t/repo/b.ts" "let b",
       SessionOp.clientDidOpen ⟨"file:///t/repo/a.ts", "typescript", "let a2", 2⟩]).2.2
    ⟨"file:///t/repo/a.ts", "typescript", "let a2", 2⟩ (by decide)

/-!
Diagnostics forwarding (server.ts:506-528).
-/

/-- Parameters of a `textDocument/publishDiagnostics` notification; the diagnostics
payload itself is opaque to the forwarding logic. -/
structure PublishDiagnosticsParams where
  uri : Url
  diagnosticsPayload : String
deriving DecidableEq, Repr

/-- Embedding of the diagnostics forwarding subscription installed by
`restartLanguageServer` (server.ts:506-528): the subscription exists only when
`typescript.diagnostics.enable` is set; a notification whose URI contains
`/node_modules/` is dropped; otherwise the URI is rewritten with
`mapFileToHttpUrlSimple` and the mapped parameters are forwarded, any error being caught,
logged, and the notification dropped. Returns the notification forwarded to the client,
if any. -/
def forwardDiagnostics (diagnosticsEnabled : Bool) (httpRootUri fileRootUri : Url)
    (params : PublishDiagnosticsParams) : Option PublishDiagnosticsParams :=
  if !diagnosticsEnabled then none
  else if strHas params.uri.href "/node_modules/" then none
  else
    match mapFileToHttpUrlSimple httpRootUri fileRootUri params.uri with
    | .ok httpUri => some { params with uri := httpUri }
    | .error _ => none

/-- C5: a diagnostics notification whose URI contains `/node_modules/` is never forwarded
to the client, and every forwarded notification has its URI rewritten to one that starts
with the HTTP root. -/
theorem diagnostics_filtered_and_rewritten (diagnosticsEnabled : Bool)
    (httpRootUri fileRootUri : Url) (params out : PublishDiagnosticsParams)
    (h : forwardDiagnostics diagnosticsEnabled httpRootUri fileRootUri params = some out) :
    strHas params.uri.href "/node_modules/" = false
    ∧ strStarts out.uri.href httpRootUri.href = true := by
  unfold forwardDiagnostics at h
  split at h
  · exact absurd h (by simp)
  · split at h
    · exact absurd h (by simp)
    · next hnm =>
      cases hmap : mapFileToHttpUrlSimple httpRootUri fileRootUri params.uri with
      | error e => rw [hmap] at h; exact absurd h (by simp)
      | ok httpUri =>
        rw [hmap] at h
        refine ⟨by simpa using hnm, ?_⟩
        cases h
        exact mapFileToHttpUrlSimple_ok_starts httpRootUri fileRootUri params.uri httpUri hmap

/-- C5 (witness): the filter theorem applied to a concrete in-workspace diagnostic. -/
theorem diagnostics_filtered_and_rewritten_witness :
    strHas (Url.href ⟨"file://", ["tmp", "cache", "conn1", "repo", "src", "z.ts"]⟩)
        "/node_modules/" = false
    ∧ strStarts
        (Url.href ⟨"https://sourcegraph.test", ["repo@abc", "-", "raw", "src", "z.ts"]⟩)
        cHttpRoot.href = true :=
  diagnostics_filtered_and_rewritten true cHttpRoot cFileRoot
    ⟨⟨"file://", ["tmp", "cache", "conn1", "repo", "src", "z.ts"]⟩, "payload"⟩
    ⟨⟨"https://sourcegraph.test", ["repo@abc", "-", "raw", "src", "z.ts"]⟩, "payload"⟩
    (by rfl)

/-!
Dependency filtering and installation (dependencies.ts `filterDependencies`,
server.ts:681-720 `installDependenciesForPackage`).
-/

/-- Result of consulting the npm registry for whether a dependency ships typings
(`hasTypes`, dependencies.ts): the package has a `types` or `typings` field, it has
neither, or the metadata fetch failed. -/
inductive TypesLookup where
  | typed
  | untyped
  | unreachable
deriving DecidableEq, Repr

/-- A package manifest restricted to the fields `filterDependencies` manipulates: the
three dependency maps, as insertion-ordered association lists of name and version range. -/
structure PackageManifest where
  dependencies : List (String × String)
  devDependencies : List (String × String)
  optionalDependencies : List (String × String)
deriving DecidableEq, Repr

/-- Outcome of a `filterDependencies` call. -/
structure FilterOutcome where
  fileAfter : PackageManifest
  included : List String
  excluded : List String
  wrote : Bool
deriving DecidableEq, Repr

/-- Process one dependency map of `filterDependencies` (dependencies.ts): names with an
`@types/` prefix are kept unconditionally; other names are kept when the registry reports
typings and deleted from the map otherwise; a metadata error is logged and leaves the
dependency in place without counting it as included or excluded. Returns the remaining
entries together with the included and excluded names. -/
def filterDepList (registry : String → TypesLookup) :
    List (String × String) → List (String × String) × List String × List String
  | [] => ([], [], [])
  | (name, range) :: rest =>
    let r := filterDepList registry rest
    if strStarts name "@types/" then ((name, range) :: r.1, name :: r.2.1, r.2.2)
    else
      match registry name with
      | .typed => ((name, range) :: r.1, name :: r.2.1, r.2.2)
      | .untyped => (r.1, r.2.1, name :: r.2.2)
      | .unreachable => ((name, range) :: r.1, r.2.1, r.2.2)

/-- Embedding of `filterDependencies` (dependencies.ts): filter the three dependency
maps, write the manifest back only when `included.length > 0 && excluded.length > 0`
(otherwise the file on disk is untouched), and return whether any qualifying dependency
remains (`included.length > 0`). -/
def filterDependencies (registry : String → TypesLookup) (pkg : PackageManifest) :
    FilterOutcome × Bool :=
  let r1 := filterDepList registry pkg.dependencies
  let r2 := filterDepList registry pkg.devDependencies
  let r3 := filterDepList registry pkg.optionalDependencies
  let included := r1.2.1 ++ r2.2.1 ++ r3.2.1
  let excluded := r1.2.2 ++ r2.2.2 ++ r3.2.2
  let wrote := !included.isEmpty && !excluded.isEmpty
  ({ fileAfter := if wrote then ⟨r1.1, r2.1, r3.1⟩ else pkg
     included := included
     excluded := excluded
     wrote := wrote }, !included.isEmpty)

/-- Outcome of one awaited step of the installation body; `Except.error` stands for a
thrown exception. -/
abbrev StepResult := Except Unit Unit

/-- Record of one `installDependenciesForPackage` run. -/
structure InstallRun where
  result : Except Unit Unit
  installerInvoked : Bool
  finishedMarked : Bool
deriving Repr

/-- Embedding of `installDependenciesForPackage` (server.ts:681-720). Its body awaits
`filterDependencies` (outcome, or thrown error, in `filterOutcome`), returns early when
no qualifying dependency remains, and otherwise invokes the yarn installer, sanitizes
tsconfigs under the new `node_modules` and, unless
`typescript.restartAfterDependencyInstallation` is `false`, restarts the language server;
the results of those awaited steps are inputs. A thrown error reaches the catch block,
whose `throwIfCancelled(token)` re-raises exactly when the cancellation token is
cancelled and which otherwise only logs; the finally block marks the package root as
finished in every case. -/
def installDependenciesForPackage (tokenCancelled : Bool)
    (filterOutcome : Except Unit Bool)
    (installOutcome sanitizeOutcome restartOutcome : StepResult)
    (restartAfterInstallation : Bool) : InstallRun :=
  let body : Except Unit Unit × Bool :=
    match filterOutcome with
    | .error e => (.error e, false)
    | .ok false => (.ok (), false)
    | .ok true =>
      match installOutcome with
      | .error e => (.error e, true)
      | .ok () =>
        match sanitizeOutcome with
        | .error e => (.error e, true)
        | .ok () =>
          if restartAfterInstallation then
            match restartOutcome with
            | .error e => (.error e, true)
            | .ok () => (.ok (), true)
          else (.ok (), true)
  let outcome : Except Unit Unit :=
    match body.1 with
    | .ok () => .ok ()
    | .error _ => if tokenCancelled then .error () else .ok ()
  { result := outcome
    installerInvoked := body.2
    finishedMarked := true }

/-- C6: `filterDependencies` writes the manifest back iff at least one dependency was
excluded and at least one was included (in particular the file is unchanged when nothing
was excluded), and when zero qualifying dependencies remain after filtering,
`installDependenciesForPackage` returns without invoking the installer. -/
theorem filter_write_iff_and_skip_install (registry : String → TypesLookup)
    (pkg : PackageManifest) :
    ((filterDependencies registry pkg).1.wrote = true
      ↔ (filterDependencies registry pkg).1.excluded ≠ []
        ∧ (filterDependencies registry pkg).1.included ≠ [])
    ∧ ((filterDependencies registry pkg).1.excluded = []
        → (filterDependencies registry pkg).1.fileAfter = pkg)
    ∧ ∀ (tokenCancelled : Bool) (io so ro : StepResult) (cfg : Bool),
        (filterDependencies registry pkg).2 = false →
        (installDependenciesForPackage tokenCancelled
            (.ok (filterDependencies registry pkg).2) io so ro cfg).installerInvoked
          = false := by
  refine ⟨?_, ?_, ?_⟩
  · simp only [filterDependencies]
    constructor
    · intro h
      simp only [Bool.and_eq_true, Bool.not_eq_true', List.isEmpty_eq_false] at h
      exact ⟨h.2, h.1⟩
    · intro h
      simp only [Bool.and_eq_true, Bool.not_eq_true', List.isEmpty_eq_false]
      exact ⟨h.2, h.1⟩
  · intro h
    simp only [filterDependencies] at h ⊢
    rw [h]
    simp
  · intro tokenCancelled io so ro cfg h
    rw [h]
    rfl

/-- C6 (witness): with a registry that reports no typings for any package, a manifest
with a single plain dependency yields no qualifying dependency and the installer is not
invoked. -/
theorem filter_write_iff_and_skip_install_witness :
    (installDependenciesForPackage false
        (.ok (filterDependencies (fun _ => TypesLookup.untyped)
          ⟨[("leftpad", "*")], [], []⟩).2)
        (.ok ()) (.ok ()) (.ok ()) true).installerInvoked = false :=
  (filter_write_iff_and_skip_install (fun _ => TypesLookup.untyped)
      ⟨[("leftpad", "*")], [], []⟩).2.2 false (.ok ()) (.ok ()) (.ok ()) true (by rfl)

/-- C9: `installDependenciesForPackage` marks the package root as finished in every case
(the finally block); when the cancellation token is not cancelled, the run resolves
successfully whatever error its body threw (the catch block logs it), so the client
request that triggered the installation is not aborted; when the token is cancelled and
the body threw, the cancellation is re-raised rather than swallowed. -/
theorem install_errors_logged_not_propagated (tokenCancelled : Bool)
    (filterOutcome : Except Unit Bool) (io so ro : StepResult) (cfg : Bool) :
    ((installDependenciesForPackage tokenCancelled filterOutcome io so ro cfg).finishedMarked
        = true)
    ∧ (tokenCancelled = false →
        (installDependenciesForPackage tokenCancelled filterOutcome io so ro cfg).result
          = .ok ())
    ∧ (tokenCancelled = true → ∀ e : Unit, filterOutcome = .error e →
        (installDependenciesForPackage tokenCancelled filterOutcome io so ro cfg).result
          = .error ()) := by
  refine ⟨rfl, ?_, ?_⟩
  · intro h
    subst h
    simp only [installDependenciesForPackage]
    split
    · rfl
    · simp
  · intro h e hf
    subst h
    rw [hf]
    rfl

/-- C9 (witness): a failing filter step with an uncancelled token still resolves. -/
theorem install_errors_logged_not_propagated_witness :
    (installDependenciesForPackage false (.error ()) (.ok ()) (.ok ()) (.ok ())
        true).result = .ok () :=
  (install_errors_logged_not_propagated false (.error ()) (.ok ()) (.ok ()) (.ok ())
    true).2.1 rfl

/-!
Sanitization of tsconfig.json files (tsconfig.ts `sanitizeTsConfigs`).
-/

/-- A `tsconfig.json` file in the workspace: its path, whether its `compilerOptions`
carry a `plugins` field, and the rest of its contents (opaque). -/
structure TsConfigFile where
  path : String
  hasPlugins : Bool
  otherContents : String
deriving DecidableEq, Repr

/-- Rewrite of one tsconfig as performed by the selector passed to `flatMapConcurrent`
inside `sanitizeTsConfigs` (tsconfig.ts): parse leniently and, when
`compilerOptions.plugins` is present, remove the field and rewrite the file. -/
def sanitizeOneTsConfig (f : TsConfigFile) : TsConfigFile :=
  if f.hasPlugins then { f with hasPlugins := false } else f

/-- Embedding of `sanitizeTsConfigs` (tsconfig.ts). The function globs the tsconfigs and
builds `flatMapConcurrent(glob, 10, selector)` — a lazy `AsyncIterableX` whose selector
would perform the per-file rewrite — but neither consumes nor awaits it (compare
server.ts, where every other `flatMapConcurrent` result is drained with `.toArray()` or
`.first()`); an async generator's body does not run before it is pulled. So no file is
rewritten and the surrounding awaited `tracePromise` resolves with the filesystem
unchanged; the unused binding mirrors the dropped iterable. -/
def sanitizeTsConfigs (files : List TsConfigFile) : List TsConfigFile :=
  let _droppedLazyRewrites := files.map sanitizeOneTsConfig
  files

/-- Modelled from the spec: "every tsconfig.json under <fileRoot> (and, after each
installation, under the new node_modules/) is sanitized: parsed leniently, any
compilerOptions.plugins field is removed, and the file is rewritten" — the sanitization
`sanitizeTsConfigs` is documented and intended to perform on every globbed file. -/
def sanitizeTsConfigsSpec (files : List TsConfigFile) : List TsConfigFile :=
  files.map sanitizeOneTsConfig

/-- C7 (code bug): a workspace containing a tsconfig with `compilerOptions.plugins`
passes through `sanitizeTsConfigs` unchanged — the plugins field survives both Initialize
and installation — whereas the documented sanitization removes it. -/
theorem sanitizeTsConfigs_never_rewrites :
    sanitizeTsConfigs [⟨"repo/tsconfig.json", true, "{}"⟩]
        = [⟨"repo/tsconfig.json", true, "{}"⟩]
    ∧ (sanitizeTsConfigs [⟨"repo/tsconfig.json", true, "{}"⟩]).any
        (fun f => f.hasPlugins) = true
    ∧ sanitizeTsConfigsSpec [⟨"repo/tsconfig.json", true, "{}"⟩]
        ≠ sanitizeTsConfigs [⟨"repo/tsconfig.json", true, "{}"⟩] := by
  refine ⟨rfl, rfl, ?_⟩
  decide

/-!
Outgoing location mapping (server.ts:798-927 `mapFileLocation`,
dependencies.ts `resolveDependencyRootDir`).
-/

/-- Zero-based protocol position. -/
structure Position where
  line : Nat
  character : Nat
deriving DecidableEq, Repr

/-- Protocol range; the field called `end` in the protocol is named `stop` here because
`end` is a Lean keyword. -/
structure Range where
  start : Position
  stop : Position
deriving DecidableEq, Repr

/-- A protocol location: a URI and a range. -/
structure Location where
  uri : Url
  range : Range
deriving DecidableEq, Repr

/-- Result of `SourceMapConsumer.originalPositionFor`: every component may be null. -/
structure NullableMappedPosition where
  source : Option Url
  line : Option Nat
  column : Option Nat
deriving DecidableEq, Repr

/-- A source-map consumer, abstracted as its `originalPositionFor` lookup from a
one-based line and a zero-based column. -/
structure SourceMapConsumer where
  originalPositionFor : Nat → Nat → NullableMappedPosition

/-- Embedding of the source-map block of `mapFileLocation` (server.ts:838-895): fetch
the sibling `.map` (`mapFetch = none` models `ResourceNotFoundError`), query
`originalPositionFor` at the one-based start and end lines (`line + 1`), and require all
components non-null and the mapped source URI to lie under the workspace temp root; on
success the location is rewritten to the source file with lines converted back to
zero-based (`line - 1`), and on any failure — no map, a null component, or a source URI
outside the temp root — the thrown error is caught and the declaration-file location is
kept. -/
def sourceMapLocation (tempDirUri : Url) (mapFetch : Option SourceMapConsumer)
    (fileUri : Url) (range : Range) : Url × Range :=
  match mapFetch with
  | none => (fileUri, range)
  | some consumer =>
    let mappedStart := consumer.originalPositionFor (range.start.line + 1) range.start.character
    let mappedEnd := consumer.originalPositionFor (range.stop.line + 1) range.stop.character
    match mappedStart.source, mappedStart.line, mappedStart.column,
        mappedEnd.line, mappedEnd.column with
    | some src, some sl, some sc, some el, some ec =>
      if !(strStarts src.href tempDirUri.href) then
        (fileUri, range)
      else
        (src, ⟨⟨sl - 1, sc⟩, ⟨el - 1, ec⟩⟩)
    | _, _, _, _, _ => (fileUri, range)

/-- C8: if the sibling source map maps the positions but the mapped source URI does not
start with the workspace temp root URI, the mapping is discarded and the declaration-file
location (original URI and range) is used instead; when the mapping is used, lines are
converted one-based into `originalPositionFor` (`line + 1`) and back to zero-based out
(`line - 1`). -/
theorem sourcemap_requires_temp_root (tempDirUri : Url) (consumer : SourceMapConsumer)
    (fileUri : Url) (range : Range) :
    (∀ (src : Url) (sl sc : Option Nat),
        consumer.originalPositionFor (range.start.line + 1) range.start.character
          = ⟨some src, sl, sc⟩ →
        strStarts src.href tempDirUri.href = false →
        sourceMapLocation tempDirUri (some consumer) fileUri range = (fileUri, range))
    ∧ (∀ (src : Url) (sl sc el ec : Nat) (endSrc : Option Url),
        consumer.originalPositionFor (range.start.line + 1) range.start.character
          = ⟨some src, some sl, some sc⟩ →
        consumer.originalPositionFor (range.stop.line + 1) range.stop.character
          = ⟨endSrc, some el, some ec⟩ →
        strStarts src.href tempDirUri.href = true →
        sourceMapLocation tempDirUri (some consumer) fileUri range
          = (src, ⟨⟨sl - 1, sc⟩, ⟨el - 1, ec⟩⟩)) := by
  constructor
  · intro src sl sc hstart hout
    simp only [sourceMapLocation]
    rw [hstart]
    cases sl with
    | none => rfl
    | some sl =>
      cases sc with
      | none => rfl
      | some sc =>
        cases hend : consumer.originalPositionFor (range.stop.line + 1) range.stop.character
          with
        | mk endSrc el ec =>
          cases el with
          | none => rfl
          | some el =>
            cases ec with
            | none => rfl
            | some ec => simp [hout]
  · intro src sl sc el ec endSrc hstart hend hin
    simp only [sourceMapLocation]
    rw [hstart, hend]
    simp [hin]

/-- C8 (witness): a consumer that maps line `l` to `l - 5` inside the temp root; the
mapping at range `10:2-10:9` is used and yields lines `5` (one-based 6). -/
theorem sourcemap_requires_temp_root_witness :
    sourceMapLocation ⟨"file://", ["tmp", "cache", "conn1", ""]⟩
        (some ⟨fun l c =>
          ⟨some ⟨"file://", ["tmp", "cache", "conn1", "repo", "src", "index.ts"]⟩,
            some (l - 5), some c⟩⟩)
        ⟨"file://", ["tmp", "cache", "conn1", "repo", "node_modules", "p", "index.d.ts"]⟩
        ⟨⟨10, 2⟩, ⟨10, 9⟩⟩
      = (⟨"file://", ["tmp", "cache", "conn1", "repo", "src", "index.ts"]⟩,
          ⟨⟨5, 2⟩, ⟨5, 9⟩⟩) :=
  (sourcemap_requires_temp_root ⟨"file://", ["tmp", "cache", "conn1", ""]⟩
      ⟨fun l c =>
        ⟨some ⟨"file://", ["tmp", "cache", "conn1", "repo", "src", "index.ts"]⟩,
          some (l - 5), some c⟩⟩
      ⟨"file://", ["tmp", "cache", "conn1", "repo", "node_modules", "p", "index.d.ts"]⟩
      ⟨⟨10, 2⟩, ⟨10, 9⟩⟩).2
    ⟨"file://", ["tmp", "cache", "conn1", "repo", "src", "index.ts"]⟩ 6 2 6 9
    (some ⟨"file://", ["tmp", "cache", "conn1", "repo", "src", "index.ts"]⟩)
    (by rfl) (by rfl) (by rfl)

/-- Repository field of a package.json: the clone URL and, for the object form, an
optional monorepo subdirectory. -/
structure RepositoryField where
  url : String
  directory : Option String
  isObjectForm : Bool
deriving DecidableEq, Repr

/-- The fields of a dependency's package.json that `mapFileLocation` consults. -/
structure PackageJsonInfo where
  name : String
  version : String
  repository : Option RepositoryField
deriving DecidableEq, Repr

/-- Registry metadata of a published package (`fetchPackageMeta`). -/
structure PackageMeta where
  gitHead : Option String
deriving DecidableEq, Repr

/-- Condition of the while loop of `resolveDependencyRootDir` (dependencies.ts): the
second-to-last segment is `node_modules`, or the third-to-last is `node_modules` and the
second-to-last is a scope starting with `@`. -/
def depRootCond (parts : List String) : Bool :=
  match parts.reverse with
  | _ :: p2 :: rest =>
    p2 == "node_modules" ||
      (match rest with
       | p3 :: _ => p3 == "node_modules" && strStarts p2 "@"
       | [] => false)
  | _ => false

/-- Embedding of `resolveDependencyRootDir` (dependencies.ts:168-180) on the slash-split
segments of the file path: pop trailing segments until the path ends at
`node_modules/<pkg>` or `node_modules/@scope/<pkg>`, or becomes empty. -/
def resolveDependencyRootDir (parts : List String) : List String :=
  if h : parts = [] then parts
  else if depRootCond parts then parts
  else resolveDependencyRootDir parts.dropLast
termination_by parts.length
decreasing_by
  rw [List.length_dropLast]
  have := List.length_pos.2 h
  omega

/-- POSIX relative path between two path-segment lists (`path.posix.relative`). -/
def posixRelativeSegs (f t : List String) : List String :=
  let fr := resolvePosix f
  let tr := resolvePosix t
  let c := commonPrefixLen fr tr
  List.replicate (fr.length - c) ".." ++ tr.drop c

/-- Model of setting `URL.prototype.username`: insert the userinfo and `@` after the
scheme's `://` in the origin. -/
def insertUserinfo : List Char → List Char → List Char
  | ':' :: '/' :: '/' :: rest, tok => ':' :: '/' :: '/' :: (tok ++ '@' :: rest)
  | c :: rest, tok => c :: insertUserinfo rest tok
  | [], _ => []

def setUsername (u : Url) (tok : Option String) : Url :=
  match tok with
  | none => u
  | some t => { u with origin := String.mk (insertUserinfo u.origin.data t.data) }

/-- Subdirectory selection of `mapFileLocation` (server.ts:820-834): a GitHub
`tree/<ref>/<subdir>` clone URL contributes the matched subdirectory; an object-form
repository field with a `directory` overrides it; otherwise a DefinitelyTyped package
`@types/<name>` uses `types/<name>` (the name with the `@` stripped). -/
def subdirFor (pkg : PackageJsonInfo) (repo : RepositoryField)
    (treeMatchSubdir : Option String) : String :=
  let subdir0 := match treeMatchSubdir with
    | some s => s
    | none => ""
  match repo.isObjectForm, repo.directory with
  | true, some d => d
  | _, _ =>
    if strStarts pkg.name "@types/" then String.mk (pkg.name.data.drop 1) else subdir0

/-- External collaborators consulted by `mapFileLocation`, abstracted as their outcomes
for the location being mapped: the embedded TypeScript lib directory and version, the
session roots and configuration, the `findClosestPackageJson` walk, the
`fetchPackageMeta` registry fetch, the GitHub tree-URL regex match on the clone URL, the
`resolveRepository` GraphQL resolution, the sibling source-map fetch, and the
cancellation token. -/
structure MapEnv where
  typescriptDirUri : Url
  typescriptVersion : String
  tempDirUri : Url
  httpRootUri : Url
  fileRootUri : Url
  instanceUrl : Url
  accessToken : Option String
  closestPackageJson : Except Unit PackageJsonInfo
  packageMeta : Except Unit PackageMeta
  treeMatchSubdir : Option String
  repoName : Except Unit String
  sourceMap : Option SourceMapConsumer
  tokenCancelled : Bool

/-- Embedding of `mapFileLocation` (server.ts:798-927). A location under the embedded
TypeScript lib is pinned to the Microsoft/TypeScript repository at the embedded version.
A location inside `node_modules` is resolved to an external repository URL inside a
`try` block — closest package.json, its `repository` field (throwing when absent),
registry metadata, source-map rewrite (with its own internal fallback), repository
resolution, commit from `gitHead` (omitted with a warning when absent), and the final
URL with optional bearer userinfo; any error thrown in the block reaches the catch,
which re-raises on cancellation and otherwise logs and returns the original location,
raw `file:` URI included. Any other location is rewritten with `mapFileToHttpUrlSimple`,
whose errors propagate to the caller. -/
def mapFileLocation (env : MapEnv) (loc : Location) : Except Unit Location :=
  if strStarts loc.uri.href env.typescriptDirUri.href then
    let relativeFilePath := posixRelativeSegs env.typescriptDirUri.segments loc.uri.segments
    .ok ⟨⟨"https://sourcegraph.com",
      ["github.com", "Microsoft", "TypeScript@v" ++ env.typescriptVersion, "-", "raw"]
        ++ relativeFilePath⟩, loc.range⟩
  else if strHas loc.uri.pathname "/node_modules/" then
    let fallback : Except Unit Location :=
      if env.tokenCancelled then .error () else .ok loc
    match env.closestPackageJson with
    | .error _ => fallback
    | .ok pkg =>
      match pkg.repository with
      | none => fallback
      | some repo =>
        match env.packageMeta with
        | .error _ => fallback
        | .ok packageMeta =>
          let subdir := subdirFor pkg repo env.treeMatchSubdir
          let mapped := sourceMapLocation env.tempDirUri env.sourceMap loc.uri loc.range
          match env.repoName with
          | .error _ => fallback
          | .ok repoName =>
            let depRootDir := resolveDependencyRootDir loc.uri.segments
            let mappedPackageRelativeFilePath := posixRelativeSegs depRootDir mapped.1.segments
            let repoRev := match packageMeta.gitHead with
              | some c => repoName ++ "@" ++ c
              | none => repoName
            let httpUrl : Url :=
              setUsername
                ⟨env.instanceUrl.origin,
                  resolvePosix ([repoRev, "-", "raw"] ++ splitSlash subdir
                    ++ mappedPackageRelativeFilePath)⟩
                env.accessToken
            .ok ⟨httpUrl, mapped.2⟩
  else
    match mapFileToHttpUrlSimple env.httpRootUri env.fileRootUri loc.uri with
    | .ok httpUri => .ok ⟨httpUri, loc.range⟩
    | .error _ => .error ()

/-- C10: for a location inside `node_modules` (and not under the TypeScript lib), when
external-repo resolution fails at any stage — no closest package.json, a package.json
without a repository field, unreachable registry metadata, or an unresolvable repository
— and the request is not cancelled, `mapFileLocation` does not throw: it returns the
original location unchanged, so the client receives the raw `file:` URI even though it
does not start with `httpRoot`. -/
theorem mapFileLocation_failure_returns_original (env : MapEnv) (loc : Location)
    (hts : strStarts loc.uri.href env.typescriptDirUri.href = false)
    (hnm : strHas loc.uri.pathname "/node_modules/" = true)
    (hcancel : env.tokenCancelled = false)
    (hfail : env.closestPackageJson = .error ()
      ∨ (∃ pkg, env.closestPackageJson = .ok pkg ∧ pkg.repository = none)
      ∨ env.packageMeta = .error ()
      ∨ env.repoName = .error ()) :
    mapFileLocation env loc = .ok loc := by
  rcases hfail with h | ⟨pkg, hpkg, hrepo⟩ | h | h
  · simp [mapFileLocation, hts, hnm, hcancel, h]
  · simp [mapFileLocation, hts, hnm, hcancel, hpkg, hrepo]
  · cases hcp : env.closestPackageJson with
    | error e => simp [mapFileLocation, hts, hnm, hcancel, hcp]
    | ok pkg =>
      cases hrepo : pkg.repository with
      | none => simp [mapFileLocation, hts, hnm, hcancel, hcp, hrepo]
      | some repo => simp [mapFileLocation, hts, hnm, hcancel, hcp, hrepo, h]
  · cases hcp : env.closestPackageJson with
    | error e => simp [mapFileLocation, hts, hnm, hcancel, hcp]
    | ok pkg =>
      cases hrepo : pkg.repository with
      | none => simp [mapFileLocation, hts, hnm, hcancel, hcp, hrepo]
      | some repo =>
        cases hpm : env.packageMeta with
        | error e => simp [mapFileLocation, hts, hnm, hcancel, hcp, hrepo, hpm]
        | ok meta => simp [mapFileLocation, hts, hnm, hcancel, hcp, hrepo, hpm, h]

/-- Concrete environment in which the closest-package.json walk fails. -/
def cMapEnvFail : MapEnv :=
  { typescriptDirUri := ⟨"file://", ["app", "node_modules", "typescript", ""]⟩
    typescriptVersion := "3.2.2"
    tempDirUri := ⟨"file://", ["tmp", "cache", "conn1", ""]⟩
    httpRootUri := cHttpRoot
    fileRootUri := cFileRoot
    instanceUrl := ⟨"https://sourcegraph.test", [""]⟩
    accessToken := none
    closestPackageJson := .error ()
    packageMeta := .error ()
    treeMatchSubdir := none
    repoName := .error ()
    sourceMap := none
    tokenCancelled := false }

/-- C10 (witness): the failure theorem applied to a concrete `node_modules` location. -/
theorem mapFileLocation_failure_returns_original_witness :
    mapFileLocation cMapEnvFail
        ⟨⟨"file://", ["tmp", "cache", "conn1", "repo", "node_modules", "lodash",
          "index.d.ts"]⟩, ⟨⟨3, 1⟩, ⟨3, 7⟩⟩⟩
      = .ok ⟨⟨"file://", ["tmp", "cache", "conn1", "repo", "node_modules", "lodash",
          "index.d.ts"]⟩, ⟨⟨3, 1⟩, ⟨3, 7⟩⟩⟩ :=
  mapFileLocation_failure_returns_original cMapEnvFail
    ⟨⟨"file://", ["tmp", "cache", "conn1", "repo", "node_modules", "lodash",
      "index.d.ts"]⟩, ⟨⟨3, 1⟩, ⟨3, 7⟩⟩⟩
    (by rfl) (by rfl) (by rfl) (Or.inl rfl)

end LangTypescript
